import Mathlib

/-!
Shallow embedding of the search engine of the "Law and Penal code South Sudan
Finder" repository (file `src/lib/search.ts`, class `LawSearch`, together with
the legacy engine embedded at the end of `src/pages/Index.tsx`), and proofs
about it.  Strings are modelled through their character lists; the JavaScript
regular expressions built by the engine are modelled by executable character
scanners implementing exactly the semantics of the concrete patterns the code
compiles (`\b<tok>\b`, `\barticle\s*<n>(?=[^\d]|$)`, escaped literals and the
AND-of-lookaheads pattern).
-/

/-- Model of the JavaScript word-character class `\w` = `[A-Za-z0-9_]`,
used by the `\b` word-boundary assertion. -/
def isWordChar (c : Char) : Bool := c.isAlphanum || c = '_'

/-- Model of the JavaScript whitespace class `\s`, restricted to the ASCII
whitespace characters that can actually occur in this engine's inputs
(the normalizer collapses every whitespace run to a single U+0020). -/
def isWsChar (c : Char) : Bool := c.isWhitespace

/-- Modelled from the source's `String.prototype.normalize('NFD')`: canonical
decomposition table restricted to the precomposed characters exercised in this
development; all other characters are treated as NFD-atomic. -/
def nfdMap (c : Char) : List Char :=
  if c = 'é' then ['e', '́']
  else if c = 'É' then ['E', '́']
  else [c]

/-- Modelled from the source's `\p{Diacritic}` character class, restricted to
the Combining Diacritical Marks block U+0300 - U+036F (the block produced by
the modelled decompositions). -/
def isDiacritic (c : Char) : Bool := 768 ≤ c.toNat && c.toNat ≤ 879

/-- Modelled from the source's `String.prototype.toLowerCase`, restricted to
the ASCII case mapping (sufficient for the modelled character set: the
accented letters are decomposed by `nfdMap` before lower-casing). -/
def lowerChar (c : Char) : Char :=
  if 65 ≤ c.toNat ∧ c.toNat ≤ 90 then Char.ofNat (c.toNat + 32) else c

/-- The character-level stage of `normalize`: NFD decomposition, removal of
combining diacritical marks, lower-casing (in the order of the source). -/
def charStage (l : List Char) : List Char :=
  ((l.flatMap nfdMap).filter (fun c => !isDiacritic c)).map lowerChar

/-- Splits a character list into its maximal whitespace-free runs; `acc` holds
the reversed characters of the run being read. -/
def wsplitAux : List Char → List Char → List (List Char)
  | [], acc => if acc = [] then [] else [acc.reverse]
  | c :: rest, acc =>
    if isWsChar c then
      if acc = [] then wsplitAux rest [] else acc.reverse :: wsplitAux rest []
    else wsplitAux rest (c :: acc)

/-- Joins words with single spaces (model of `Array.prototype.join(' ')`). -/
def joinWords : List (List Char) → List Char
  | [] => []
  | [w] => w
  | w :: ws => w ++ ' ' :: joinWords ws

/-- Model of `replace(/\s+/g, ' ')` followed by `trim()`: collapse whitespace
runs to single spaces and drop leading/trailing whitespace.  Splitting into
whitespace-free words and re-joining with single spaces is exactly that. -/
def collapseWs (l : List Char) : List Char := joinWords (wsplitAux l [])

/-- Character-list version of the source's `normalize` pipeline
(`normalize('NFD')`, strip `\p{Diacritic}`, `toLowerCase()`,
collapse `\s+` to one space, `trim()`). -/
def normChars (l : List Char) : List Char := collapseWs (charStage l)

/-- The source's `LawSearch.normalize`, as the pure text function it computes
(the memoized cache around it is modelled separately by `normalizeSt`). -/
def normalizePure (s : String) : String := ⟨normChars s.data⟩

/-- Model of `String.prototype.trim`. -/
def trimChars (l : List Char) : List Char :=
  ((l.dropWhile isWsChar).reverse.dropWhile isWsChar).reverse

/-- Decimal digit character for a digit value (`0 ≤ d ≤ 9`). -/
def digitChar (d : Nat) : Char :=
  match d with
  | 0 => '0' | 1 => '1' | 2 => '2' | 3 => '3' | 4 => '4'
  | 5 => '5' | 6 => '6' | 7 => '7' | 8 => '8' | _ => '9'

/-- Fuel-indexed decimal writer (structural recursion so that the kernel can
evaluate it). -/
def natToCharsAux : Nat → Nat → List Char
  | 0, _ => []
  | fuel + 1, n =>
    if n < 10 then [digitChar n]
    else natToCharsAux fuel (n / 10) ++ [digitChar (n % 10)]

/-- Model of the ECMAScript ToString operation on a nonnegative integer, as
used by the template literals `` `Article ${n}` `` and
`` `\barticle\s*${n}(?=[^\d]|$)` `` of the source. -/
def natToChars (n : Nat) : List Char := natToCharsAux (n + 1) n

/-- Model of `parseInt` on a string of decimal digits. -/
def parseDigits (l : List Char) : Nat :=
  l.foldl (fun acc c => acc * 10 + (c.toNat - 48)) 0

/-- Does `pat` occur in `s` starting at position `p`? -/
def occursAt (pat s : List Char) (p : Nat) : Bool :=
  (s.drop p).take pat.length == pat

/-- Is the character at index `i` of `s` a word character (`false` beyond the
ends, as for the JavaScript `\b` assertion)? -/
def wordCharAt (s : List Char) (i : Nat) : Bool :=
  match s.get? i with
  | some c => isWordChar c
  | none => false

/-- Model of the JavaScript `\b` assertion at boundary position `i`
(between characters `i - 1` and `i`). -/
def boundaryAt (s : List Char) (i : Nat) : Bool :=
  (if i = 0 then false else wordCharAt s (i - 1)) != wordCharAt s i

/-- Does `tok` occur at position `p` of `s` with word boundaries on both
sides?  Model of a match of `\b<escaped tok>\b` at `p`. -/
def wholeWordAt (tok s : List Char) (p : Nat) : Bool :=
  occursAt tok s p && boundaryAt s p && boundaryAt s (p + tok.length)

/-- Model of `new RegExp("\\b" + esc(tok) + "\\b", "i").test(s)` for already
lower-cased `tok` and `s`: the token occurs somewhere as a whole word. -/
def testWholeWord (tok s : List Char) : Bool :=
  (List.range (s.length + 1)).any (wholeWordAt tok s)

/-- Model of `new RegExp(esc(pat), "i").test(s)` for already lower-cased
strings: plain substring containment (the escaping makes `pat` literal). -/
def testSubstr (pat s : List Char) : Bool :=
  (List.range (s.length + 1)).any (occursAt pat s)

/-- The tail of the article pattern after the literal `article` matched at
position `p`: `\s*<digits of n>(?=[^\d]|$)`.  Since digits are never
whitespace, the backtracking `\s*` succeeds exactly when the digits follow
the maximal whitespace run. -/
def articleTailAt (n : Nat) (s : List Char) (p : Nat) : Bool :=
  let rest := (s.drop (p + 7)).dropWhile isWsChar
  let ds := natToChars n
  (rest.take ds.length == ds) &&
    (match rest.get? ds.length with
     | some c => !c.isDigit
     | none => true)

/-- Match of `\barticle\s*<n>(?=[^\d]|$)` at position `p` of `s`. -/
def articlePatternAt (n : Nat) (s : List Char) (p : Nat) : Bool :=
  occursAt ("article".data) s p && boundaryAt s p && articleTailAt n s p

/-- Model of `regexPatterns.articlePattern.test(s)`:
`new RegExp("\\barticle\\s*" + n + "(?=[^\\d]|$)", "i")` on lower-cased `s`. -/
def testArticlePattern (n : Nat) (s : List Char) : Bool :=
  (List.range (s.length + 1)).any (articlePatternAt n s)

/-- Model of `regexPatterns.articleStartPattern.test(s)`:
`new RegExp("^article\\s*" + n + "(?=[^\\d]|$)", "i")` on lower-cased `s`. -/
def testArticleStart (n : Nat) (s : List Char) : Bool :=
  occursAt ("article".data) s 0 && articleTailAt n s 0

/-- Model of `regexPatterns.andTerms.test(s)`: the source compiles
`(?=.*\b t1 \b)(?=.*\b t2 \b)...` and `test` scans all start positions, so on
newline-free text (all normalized text is) it succeeds exactly when every
token occurs somewhere as a whole word. -/
def testAndTerms (toks : List (List Char)) (s : List Char) : Bool :=
  toks.all (fun t => testWholeWord t s)

/-- The set of characters escaped by the source's `escapeRegex`
(`/[.*+?^${}()|[\]\\]/g`). -/
def isRegexMeta (c : Char) : Bool :=
  c = '.' || c = '*' || c = '+' || c = '?' || c = '^' || c = '$' ||
  c = '\x7b' || c = '\x7d' || c = '(' || c = ')' || c = '|' ||
  c = '[' || c = ']' || c = '\\'

/-- The source's `escapeRegex`: prefix every regex metacharacter with a
backslash (`string.replace(/[.*+?^${}()|[\]\\]/g, '\\$&')`). -/
def escapeRegex (l : List Char) : List Char :=
  l.flatMap (fun c => if isRegexMeta c then ['\\', c] else [c])

/-- A parser for regex pattern text that only accepts sequences of literal
characters and backslash-escaped characters, returning the denoted literal
string.  A bare metacharacter (which could make `new RegExp` throw or change
the meaning of the pattern) is rejected. -/
def literalParse : List Char → Option (List Char)
  | [] => some []
  | c :: rest =>
    if c = '\\' then
      match rest with
      | [] => none
      | d :: rest2 => (literalParse rest2).map (fun l => d :: l)
    else if isRegexMeta c then none
    else (literalParse rest).map (fun l => c :: l)

/-- The `LawArticle` record of `src/lib/search.ts`.  The numeric identifier is
modelled as a natural number (the data set uses nonnegative integers). -/
structure LawArticle where
  article : Nat
  title : String
  chapter : String
  part : String
  text : String
  tags : List String
  lawSource : Option String := none
  articleNumberLabel : Option String := none
deriving DecidableEq

/-- The `matchType` discriminator of a `SearchResult`. -/
inductive MatchType where
  | exact
  | fuzzy
deriving DecidableEq

/-- The `SearchResult` record: an article extended with an optional score and
match type (the fuzzy-only `matches` payload is always `undefined` on the
exact path modelled here and is omitted). -/
structure SearchResult extends LawArticle where
  score : Option Nat := none
  matchType : Option MatchType := none
deriving DecidableEq

/-- The `QueryMeta` descriptor of `src/lib/search.ts`.  Each compiled
`RegExp` of the source is represented by the data that determines its
semantics: the single token for `wholeWord`, the article number for
`articlePattern`/`articleStartPattern`, the literal phrase for
`quotedPhrase`, and the token list for `andTerms`. -/
structure QueryMeta where
  originalQuery : String
  normalizedQuery : String
  isQuoted : Bool
  isArticlePattern : Bool
  articleNumber : Option Nat
  wholeWord : Option String
  articlePattern : Option Nat
  articleStartPattern : Option Nat
  quotedPhrase : Option String
  andTerms : Option (List String)
  tokens : List String
deriving DecidableEq

/-- The optional filter record accepted by `search`. -/
structure SearchFilters where
  chapter : Option String := none
  part : Option String := none
  tags : Option (List String) := none
  lawSource : Option String := none
deriving DecidableEq

/-- Model of `normalizedUnquoted.match(/^article\s*(\d+)$/i)` followed by
`parseInt` on the captured digits: the anchored keyword form.  The input is
already normalized (lower-cased), so the `i` flag is inert. -/
def articleQueryMatch (s : String) : Option Nat :=
  let l := s.data
  if l.take 7 == "article".data then
    let rest := (l.drop 7).dropWhile isWsChar
    if rest ≠ [] ∧ rest.all Char.isDigit then some (parseDigits rest) else none
  else none

/-- Model of `normalizedUnquoted.split(/\s+/).filter(t => t.length > 0)`. -/
def splitTokens (s : String) : List String :=
  (wsplitAux s.data []).map (fun w => (⟨w⟩ : String))

/-- The pattern-selection chain of `buildQueryMeta` (lines 159-176 of the
source): the mutually exclusive `if`/`else if` ladder that fills at most one
group of `regexPatterns`, represented as the tuple
(wholeWord, articlePattern, articleStartPattern, quotedPhrase, andTerms). -/
def queryPatterns (isQuoted : Bool) (normalizedUnquoted : String) (am : Option Nat)
    (tokens : List String) :
    Option String × Option Nat × Option Nat × Option String × Option (List String) :=
  if tokens.length = 1 ∧ am.isSome = false then
    (some (tokens.headD ""), none, none, none, none)
  else
    match am with
    | some n => (none, some n, some n, none, none)
    | none =>
      if isQuoted then (none, none, none, some normalizedUnquoted, none)
      else if tokens.length > 1 then (none, none, none, none, some tokens)
      else (none, none, none, none, none)

/-- The source's `buildQueryMeta`.  The `let normalizedQuery = normalize(query)`
of line 143 only feeds the memoization cache (the returned field is
`normalizedUnquoted`); the cache effect is modelled in `buildQueryMetaSt`. -/
def buildQueryMeta (query : String) : QueryMeta :=
  let isQuoted := (query.data.head? == some '"') && (query.data.getLast? == some '"')
  let unquotedQuery : String := if isQuoted then ⟨(query.data.drop 1).dropLast⟩ else query
  let normalizedUnquoted := normalizePure unquotedQuery
  let am := articleQueryMatch normalizedUnquoted
  let tokens := splitTokens normalizedUnquoted
  let pats := queryPatterns isQuoted normalizedUnquoted am tokens
  { originalQuery := query
    normalizedQuery := normalizedUnquoted
    isQuoted := isQuoted
    isArticlePattern := am.isSome
    articleNumber := am
    wholeWord := pats.1
    articlePattern := pats.2.1
    articleStartPattern := pats.2.2.1
    quotedPhrase := pats.2.2.2.1
    andTerms := pats.2.2.2.2
    tokens := tokens }

/-- The searchable fields joined with spaces:
`[title, text, chapter, part, ...tags].filter(Boolean).join(' ')`. -/
def searchableJoined (a : LawArticle) : String :=
  ⟨joinWords ((([a.title, a.text, a.chapter, a.part] ++ a.tags).filter
      (fun f => f ≠ "")).map String.data)⟩

/-- The source's `getNormalizedSearchableText`. -/
def getNormalizedSearchableText (a : LawArticle) : String :=
  normalizePure (searchableJoined a)

/-- Outcome of `matchItem`.  The Boolean field is named `matches` in the
source (`matches` is reserved in Lean); `matchDetails` carries the tag string
of the source, unused by the caller. -/
structure MatchOutcome where
  isMatch : Bool
  matchDetails : Option String := none
deriving DecidableEq

/-- The source's `matchItem`.  The dead local `normalizedArticleLabel` has no
influence on the result (its cache effect appears in `matchItemSt`). -/
def matchItem (a : LawArticle) (qm : QueryMeta) : MatchOutcome :=
  let searchableText := (getNormalizedSearchableText a).data
  let normalizedTitle := (normalizePure a.title).data
  if qm.isArticlePattern && qm.articleNumber.isSome then
    let n := qm.articleNumber.getD 0
    if a.article = n then { isMatch := true, matchDetails := some "exactArticleNumber" }
    else if (match qm.articlePattern with
             | some m => testArticlePattern m normalizedTitle ||
                 testArticlePattern m searchableText
             | none => false) then
      { isMatch := true, matchDetails := some "articlePattern" }
    else { isMatch := false }
  else
    match qm.quotedPhrase with
    | some ph =>
      if testSubstr ph.data searchableText then
        { isMatch := true, matchDetails := some "quotedPhrase" }
      else { isMatch := false }
    | none =>
      match qm.wholeWord with
      | some tok =>
        if testWholeWord tok.data searchableText then
          { isMatch := true, matchDetails := some "wholeWord" }
        else { isMatch := false }
      | none =>
        match qm.andTerms with
        | some toks =>
          if testAndTerms (toks.map String.data) searchableText then
            { isMatch := true, matchDetails := some "andTerms" }
          else { isMatch := false }
        | none => { isMatch := false }

/-- The source's `scoreMatch`: per mode, the fired clauses add their bonuses
to the running `score` (1000/800/600/400 in article mode, 500/300 for the
quoted phrase, 400/200 for a single token, 300/150 for AND terms). -/
def scoreMatch (a : LawArticle) (qm : QueryMeta) : Nat :=
  let searchableText := (getNormalizedSearchableText a).data
  let normalizedTitle := (normalizePure a.title).data
  if qm.isArticlePattern && qm.articleNumber.isSome then
    let n := qm.articleNumber.getD 0
    (if a.article = n then 1000 else 0) +
    (if (match qm.articleStartPattern with
         | some m => testArticleStart m normalizedTitle
         | none => false) then 800 else 0) +
    (if (match qm.articlePattern with
         | some m => testArticlePattern m normalizedTitle
         | none => false) then 600 else 0) +
    (if (match qm.articlePattern with
         | some m => testArticlePattern m searchableText
         | none => false) then 400 else 0)
  else
    match qm.quotedPhrase with
    | some ph =>
      if testSubstr ph.data normalizedTitle then 500
      else if testSubstr ph.data searchableText then 300
      else 0
    | none =>
      match qm.wholeWord with
      | some tok =>
        if testWholeWord tok.data normalizedTitle then 400
        else if testWholeWord tok.data searchableText then 200
        else 0
      | none =>
        match qm.andTerms with
        | some toks =>
          if testAndTerms (toks.map String.data) normalizedTitle then 300
          else if testAndTerms (toks.map String.data) searchableText then 150
          else 0
        | none => 0

/-- Sort key used by the comparator `(b.score || 0) - (a.score || 0)`. -/
def scoreKey (r : SearchResult) : Nat := r.score.getD 0

/-- Insertion step of the stable descending sort: an element passes over
exactly the results with a strictly larger key, so equal keys keep their
original relative order. -/
def insertByScore (r : SearchResult) : List SearchResult → List SearchResult
  | [] => [r]
  | x :: xs => if scoreKey r < scoreKey x then x :: insertByScore r xs else r :: x :: xs

/-- Model of `Array.prototype.sort` (stable, per ECMAScript) with the
comparator `(b.score || 0) - (a.score || 0)`: the unique stable reordering
that is descending in `scoreKey`. -/
def sortByScoreDesc : List SearchResult → List SearchResult
  | [] => []
  | x :: xs => insertByScore x (sortByScoreDesc xs)

/-- Case-insensitive substring containment, as used by the filter stages
(`a.toLowerCase().includes(b.toLowerCase())`). -/
def containsCI (a b : String) : Bool :=
  testSubstr (b.data.map lowerChar) (a.data.map lowerChar)

/-- Chapter stage of `applyFilters` (an empty string is falsy in the source's
`if (filters.chapter)` guard and imposes no constraint). -/
def filterChapter (results : List SearchResult) (f : SearchFilters) : List SearchResult :=
  match f.chapter with
  | some ch => if ch = "" then results else results.filter (fun r => containsCI r.chapter ch)
  | none => results

/-- Part stage of `applyFilters`. -/
def filterPart (results : List SearchResult) (f : SearchFilters) : List SearchResult :=
  match f.part with
  | some p => if p = "" then results else results.filter (fun r => containsCI r.part p)
  | none => results

/-- Tags stage of `applyFilters`: keep results one of whose tags contains one
of the requested tags (case-insensitively). -/
def filterTags (results : List SearchResult) (f : SearchFilters) : List SearchResult :=
  match f.tags with
  | some ts =>
    if ts.length > 0 then
      results.filter (fun r => ts.any (fun tag => r.tags.any (fun at_ => containsCI at_ tag)))
    else results
  | none => results

/-- Law-source stage of `applyFilters`: strict equality (`===`), so an absent
`lawSource` on the result never matches; an empty filter string is falsy. -/
def filterLawSource (results : List SearchResult) (f : SearchFilters) : List SearchResult :=
  match f.lawSource with
  | some ls => if ls = "" then results else results.filter (fun r => r.lawSource == some ls)
  | none => results

/-- The source's `applyFilters`: the four stages applied in order; absent
filters record is a no-op. -/
def applyFilters (results : List SearchResult) (filters : Option SearchFilters) : List SearchResult :=
  match filters with
  | none => results
  | some f => filterLawSource (filterTags (filterPart (filterChapter results f) f) f) f

/-- The matched results collected in collection order by the `for` loop of
`search`, with their scores and the `exact` tag. -/
def exactMatchList (articles : List LawArticle) (qm : QueryMeta) : List SearchResult :=
  (articles.filter (fun a => (matchItem a qm).isMatch)).map
    (fun a => { toLawArticle := a, score := some (scoreMatch a qm), matchType := some .exact })

/-- The source's `LawSearch.search` on the default (non-fuzzy) path: the
fuzzy branch delegates wholesale to the external `fuse.js` backend and is
outside the modelled core.  An empty (after trimming) query returns shallow
copies of the first four articles with filters not applied; otherwise the
query is classified once and every article is matched and scored, the
matches are stable-sorted descending by score, and the filters are applied. -/
def search (articles : List LawArticle) (query : String) (filters : Option SearchFilters) :
    List SearchResult :=
  if trimChars query.data = [] then
    (articles.take 4).map (fun a => { toLawArticle := a })
  else
    let cleanQuery : String := ⟨trimChars query.data⟩
    let qm := buildQueryMeta cleanQuery
    applyFilters (sortByScoreDesc (exactMatchList articles qm)) filters

/-- The memoization cache of `LawSearch` (`normalizedCache : Map<string,
string>`), modelled as an association list; `Map.set` prepends. -/
abbrev Cache := List (String × String)

/-- Model of `Map.prototype.get` on the normalization cache. -/
def cacheLookup (c : Cache) (k : String) : Option String :=
  (List.find? (fun kv => kv.1 == k) c).map (fun kv => kv.2)

/-- The source's `LawSearch.normalize` with its cache: return the cached
value when present, otherwise compute the pipeline and record the result. -/
def normalizeSt (s : String) (c : Cache) : String × Cache :=
  match cacheLookup c s with
  | some v => (v, c)
  | none => (normalizePure s, ((s, normalizePure s) :: c : List (String × String)))

/-- Cache-threaded `getNormalizedSearchableText`. -/
def getNormalizedSearchableTextSt (a : LawArticle) (c : Cache) : String × Cache :=
  normalizeSt (searchableJoined a) c

/-- Cache-threaded `buildQueryMeta`: the source first normalizes the raw
query (line 143, value unused), then the unquoted query. -/
def buildQueryMetaSt (query : String) (c : Cache) : QueryMeta × Cache :=
  let r0 := normalizeSt query c
  let isQuoted := (query.data.head? == some '"') && (query.data.getLast? == some '"')
  let unquotedQuery : String := if isQuoted then ⟨(query.data.drop 1).dropLast⟩ else query
  let r1 := normalizeSt unquotedQuery r0.2
  let normalizedUnquoted := r1.1
  let am := articleQueryMatch normalizedUnquoted
  let tokens := splitTokens normalizedUnquoted
  let pats := queryPatterns isQuoted normalizedUnquoted am tokens
  ({ originalQuery := query
     normalizedQuery := normalizedUnquoted
     isQuoted := isQuoted
     isArticlePattern := am.isSome
     articleNumber := am
     wholeWord := pats.1
     articlePattern := pats.2.1
     articleStartPattern := pats.2.2.1
     quotedPhrase := pats.2.2.2.1
     andTerms := pats.2.2.2.2
     tokens := tokens }, r1.2)

/-- Cache-threaded `matchItem`, with the three `normalize` calls of the
source in order (searchable text, title, and the dead article label). -/
def matchItemSt (a : LawArticle) (qm : QueryMeta) (c : Cache) : MatchOutcome × Cache :=
  let r1 := getNormalizedSearchableTextSt a c
  let r2 := normalizeSt a.title r1.2
  let r3 := normalizeSt (a.articleNumberLabel.getD "") r2.2
  let searchableText := r1.1.data
  let normalizedTitle := r2.1.data
  let out : MatchOutcome :=
    if qm.isArticlePattern && qm.articleNumber.isSome then
      let n := qm.articleNumber.getD 0
      if a.article = n then { isMatch := true, matchDetails := some "exactArticleNumber" }
      else if (match qm.articlePattern with
               | some m => testArticlePattern m normalizedTitle ||
                   testArticlePattern m searchableText
               | none => false) then
        { isMatch := true, matchDetails := some "articlePattern" }
      else { isMatch := false }
    else
      match qm.quotedPhrase with
      | some ph =>
        if testSubstr ph.data searchableText then
          { isMatch := true, matchDetails := some "quotedPhrase" }
        else { isMatch := false }
      | none =>
        match qm.wholeWord with
        | some tok =>
          if testWholeWord tok.data searchableText then
            { isMatch := true, matchDetails := some "wholeWord" }
          else { isMatch := false }
        | none =>
          match qm.andTerms with
          | some toks =>
            if testAndTerms (toks.map String.data) searchableText then
              { isMatch := true, matchDetails := some "andTerms" }
            else { isMatch := false }
          | none => { isMatch := false }
  (out, r3.2)

/-- Cache-threaded `scoreMatch`. -/
def scoreMatchSt (a : LawArticle) (qm : QueryMeta) (c : Cache) : Nat × Cache :=
  let r1 := getNormalizedSearchableTextSt a c
  let r2 := normalizeSt a.title r1.2
  let r3 := normalizeSt (a.articleNumberLabel.getD "") r2.2
  let searchableText := r1.1.data
  let normalizedTitle := r2.1.data
  let sc : Nat :=
    if qm.isArticlePattern && qm.articleNumber.isSome then
      let n := qm.articleNumber.getD 0
      (if a.article = n then 1000 else 0) +
      (if (match qm.articleStartPattern with
           | some m => testArticleStart m normalizedTitle
           | none => false) then 800 else 0) +
      (if (match qm.articlePattern with
           | some m => testArticlePattern m normalizedTitle
           | none => false) then 600 else 0) +
      (if (match qm.articlePattern with
           | some m => testArticlePattern m searchableText
           | none => false) then 400 else 0)
    else
      match qm.quotedPhrase with
      | some ph =>
        if testSubstr ph.data normalizedTitle then 500
        else if testSubstr ph.data searchableText then 300
        else 0
      | none =>
        match qm.wholeWord with
        | some tok =>
          if testWholeWord tok.data normalizedTitle then 400
          else if testWholeWord tok.data searchableText then 200
          else 0
        | none =>
          match qm.andTerms with
          | some toks =>
            if testAndTerms (toks.map String.data) normalizedTitle then 300
            else if testAndTerms (toks.map String.data) searchableText then 150
            else 0
          | none => 0
  (sc, r3.2)

/-- The `for` loop of `search`: match every article in collection order,
scoring the matches, threading the cache. -/
def matchLoop : List LawArticle → QueryMeta → Cache → List SearchResult × Cache
  | [], _, c => ([], c)
  | a :: rest, qm, c =>
    let m := matchItemSt a qm c
    if m.1.isMatch then
      let sc := scoreMatchSt a qm m.2
      let res := matchLoop rest qm sc.2
      ({ toLawArticle := a, score := some sc.1, matchType := some .exact } :: res.1, res.2)
    else matchLoop rest qm m.2

/-- The mutable state of a `LawSearch` instance touched by the exact search
path: the loaded collection and the normalization cache. -/
structure EngineState where
  articles : List LawArticle
  cache : Cache

/-- The source's `LawSearch.search` (default path) as a state transformer:
`this.articles` is only read, `this.normalizedCache` is threaded through
every `normalize` call. -/
def searchSt (st : EngineState) (query : String) (filters : Option SearchFilters) :
    List SearchResult × EngineState :=
  if trimChars query.data = [] then
    ((st.articles.take 4).map (fun a => { toLawArticle := a }), st)
  else
    let cleanQuery : String := ⟨trimChars query.data⟩
    let r1 := buildQueryMetaSt cleanQuery st.cache
    let r2 := matchLoop st.articles r1.1 r1.2
    (applyFilters (sortByScoreDesc r2.1) filters, { articles := st.articles, cache := r2.2 })

/-- Coherence of a cache state: every stored value is the normalization of
its key.  This holds of the empty initial cache and is preserved by every
search (see `searchSt_coherent`). -/
def cacheCoherent (c : Cache) : Prop :=
  ∀ kv ∈ c, kv.2 = normalizePure kv.1

/-! Sample articles used as concrete inputs in witnesses and
counterexamples. -/

/-- A sample article numbered 25 whose own fields contain neither the digits
`25` nor the word `article`. -/
def fairTrial25 : LawArticle :=
  { article := 25, title := "Right to a Fair Trial", chapter := "", part := "",
    text := "every accused person shall be presumed innocent", tags := [] }

/-- A sample article with a different number whose title starts with the text
`Article 25`. -/
def commentary7 : LawArticle :=
  { article := 7, title := "Article 25 commentary", chapter := "", part := "",
    text := "background notes", tags := [] }

/-- A sample article with identifier 9 loaded before `lawA3`; both match the
query `law` with equal scores. -/
def lawB9 : LawArticle :=
  { article := 9, title := "b", chapter := "", part := "", text := "the law x", tags := [] }

/-- A sample article with identifier 3 loaded after `lawB9`. -/
def lawA3 : LawArticle :=
  { article := 3, title := "a", chapter := "", part := "", text := "the law y", tags := [] }

/-- A sample article with a different identifier whose body text (but not
title) contains the text `article 25`: a text-only match for that query. -/
def background12 : LawArticle :=
  { article := 12, title := "background reading", chapter := "", part := "",
    text := "see article 25 for details", tags := [] }

/-- A sample article whose body text contains the letters `art` only inside
the word `article`. -/
def concernsArticle : LawArticle :=
  { article := 1, title := "Untitled", chapter := "", part := "",
    text := "This article concerns the law", tags := [] }

/-! Generic lemmas about the embedded operations. -/

theorem occursAt_nil (s : List Char) : occursAt [] s 0 = true := by
  simp [occursAt]

theorem testSubstr_nil (s : List Char) : testSubstr [] s = true := by
  apply List.any_eq_true.mpr
  exact ⟨0, List.mem_range.mpr (Nat.succ_pos _), occursAt_nil s⟩

theorem applyFilters_none (l : List SearchResult) : applyFilters l none = l := rfl

theorem filterChapter_nil (f : SearchFilters) : filterChapter [] f = [] := by
  cases hc : f.chapter <;> simp [filterChapter, hc]

theorem filterPart_nil (f : SearchFilters) : filterPart [] f = [] := by
  cases hc : f.part <;> simp [filterPart, hc]

theorem filterTags_nil (f : SearchFilters) : filterTags [] f = [] := by
  cases hc : f.tags <;> simp [filterTags, hc]

theorem filterLawSource_nil (f : SearchFilters) : filterLawSource [] f = [] := by
  cases hc : f.lawSource <;> simp [filterLawSource, hc]

theorem applyFilters_nil (filters : Option SearchFilters) : applyFilters [] filters = [] := by
  cases filters with
  | none => rfl
  | some f =>
    simp [applyFilters, filterChapter_nil, filterPart_nil, filterTags_nil, filterLawSource_nil]

theorem sortByScoreDesc_const (v : Nat) (l : List SearchResult)
    (h : ∀ x ∈ l, scoreKey x = v) : sortByScoreDesc l = l := by
  induction l with
  | nil => rfl
  | cons x rest ih =>
    have hrest : ∀ y ∈ rest, scoreKey y = v := fun y hy => h y (List.mem_cons_of_mem _ hy)
    have hx : scoreKey x = v := h x (List.mem_cons_self _ _)
    rw [sortByScoreDesc, ih hrest]
    cases rest with
    | nil => rfl
    | cons y ys =>
      have hy : scoreKey y = v := hrest y (List.mem_cons_self _ _)
      rw [insertByScore, if_neg]
      rw [hx, hy]
      exact Nat.lt_irrefl v

theorem matchItem_emptyPhrase (a : LawArticle) (qm : QueryMeta)
    (h1 : qm.isArticlePattern = false) (hph : qm.quotedPhrase = some "") :
    (matchItem a qm).isMatch = true := by
  unfold matchItem
  rw [h1, hph]
  simp [testSubstr_nil]

theorem scoreMatch_emptyPhrase (a : LawArticle) (qm : QueryMeta)
    (h1 : qm.isArticlePattern = false) (hph : qm.quotedPhrase = some "") :
    scoreMatch a qm = 500 := by
  unfold scoreMatch
  rw [h1, hph]
  simp [testSubstr_nil]

/-- When the cleaned query classifies into quoted-phrase mode with an empty
phrase, every article matches (the empty pattern matches everything) and
scores 500; the stable sort leaves the equal-scored collection order
unchanged. -/
theorem search_allQuote (arts : List LawArticle) (q : String)
    (hne : ¬(trimChars q.data = []))
    (h1 : (buildQueryMeta ⟨trimChars q.data⟩).isArticlePattern = false)
    (hph : (buildQueryMeta ⟨trimChars q.data⟩).quotedPhrase = some "") :
    search arts q none =
      arts.map (fun a =>
        { toLawArticle := a, score := some 500, matchType := some .exact }) := by
  unfold search
  rw [if_neg hne]
  dsimp only
  unfold exactMatchList
  rw [List.filter_eq_self.mpr (fun a _ => matchItem_emptyPhrase a _ h1 hph)]
  have hmap : arts.map (fun a =>
      ({ toLawArticle := a, score := some (scoreMatch a (buildQueryMeta ⟨trimChars q.data⟩)),
         matchType := some .exact } : SearchResult)) =
      arts.map (fun a =>
        ({ toLawArticle := a, score := some 500, matchType := some .exact } : SearchResult)) := by
    apply List.map_congr_left
    intro a _
    rw [scoreMatch_emptyPhrase a _ h1 hph]
  rw [hmap]
  rw [sortByScoreDesc_const 500]
  · rfl
  · intro x hx
    rcases List.mem_map.mp hx with ⟨a, _, rfl⟩
    rfl

/-- C1: the spec's regression scenario fails on `src/lib/search.ts`.  The
query `25` is NOT classified in article-number mode (the code's pattern
`/^article\s*(\d+)$/i` requires the literal `article` keyword, with no
pure-digit and no `art.` alternative); it falls into single-token
whole-word mode, and on a collection holding the article numbered 25 whose
fields do not contain the digits `25`, the search returns no results instead
of the singleton.  This contradicts the spec and the repository's own UI help
text and legacy engine, which both support plain `25`. -/
theorem digit_query_not_article_mode :
    (buildQueryMeta "25").isArticlePattern = false ∧
    (buildQueryMeta "25").wholeWord = some "25" ∧
    search [fairTrial25] "25" none = [] := by decide

/-- C6: an empty or whitespace-only query returns shallow copies of the first
four articles in load order, with the supplied filters not applied. -/
theorem empty_query_browse (articles : List LawArticle) (filters : Option SearchFilters)
    (query : String) (h : trimChars query.data = []) :
    search articles query filters =
      (articles.take 4).map (fun a => { toLawArticle := a }) := by
  unfold search
  rw [if_pos h]

/-- Witness for C6: a whitespace-only query with a chapter filter that would
exclude every article still returns the whole two-article prefix. -/
theorem empty_query_browse_witness :
    search [fairTrial25, commentary7] "   " (some { chapter := some "notes" }) =
      ([fairTrial25, commentary7].take 4).map (fun a => { toLawArticle := a }) :=
  empty_query_browse _ _ _ (by decide)

/-- C10: a query consisting solely of double quotes (`"` or `""`) classifies
into quoted-phrase mode with the empty phrase, whose pattern matches every
string, so the exact search returns every article of the collection, each
scored 500 (title phrase hit). -/
theorem quotes_only_query_returns_all (arts : List LawArticle) :
    search arts "\"" none =
      arts.map (fun a =>
        { toLawArticle := a, score := some 500, matchType := some .exact }) ∧
    search arts "\"\"" none =
      arts.map (fun a =>
        { toLawArticle := a, score := some 500, matchType := some .exact }) :=
  ⟨search_allQuote arts _ (by decide) (by decide) (by decide),
   search_allQuote arts _ (by decide) (by decide) (by decide)⟩

/-- Counterexample to C2 as stated: on a collection where a second article's
title contains the text `Article 25`, the query `Article 25` returns two
results, and the exact-identifier article 25 (score 1000) is ranked below
article 7 (score 1800), so the result set is not the singleton and the
queried article does not have the highest score. -/
theorem article_query_not_singleton :
    (search [fairTrial25, commentary7] "Article 25" none).map
      (fun r => (r.article, scoreKey r)) = [(7, 1800), (25, 1000)] := by decide

/-- Counterexample to C3 as stated: under the query `article 25`, the article
matched by exact numeric identifier (`fairTrial25`, score 1000) does NOT
score strictly higher than `commentary7`, whose identifier differs but whose
title starts with the pattern: the per-tier bonuses accumulate to
800 + 600 + 400 = 1800 for the latter. -/
theorem exact_id_not_top_of_ladder :
    fairTrial25.article = 25 ∧
    commentary7.article ≠ 25 ∧
    testArticleStart 25 (normalizePure commentary7.title).data = true ∧
    scoreMatch fairTrial25 (buildQueryMeta "article 25") = 1000 ∧
    scoreMatch commentary7 (buildQueryMeta "article 25") = 1800 ∧
    ¬ (scoreMatch commentary7 (buildQueryMeta "article 25") <
        scoreMatch fairTrial25 (buildQueryMeta "article 25")) := by decide

/-- Counterexample to C4 as stated: both articles match `law` with equal
score 200, yet the article with the larger identifier 9 is listed before
identifier 3 (the stable sort keeps load order on ties; there is no
ascending-identifier tie-break in `src/lib/search.ts`). -/
theorem equal_scores_keep_load_order :
    ((search [lawB9, lawA3] "law" none).map (fun r => (r.article, scoreKey r)) =
      [(9, 200), (3, 200)]) ∧
    ¬ List.Pairwise
      (fun r1 r2 => scoreKey r2 < scoreKey r1 ∨
        (scoreKey r1 = scoreKey r2 ∧ r1.article < r2.article))
      (search [lawB9, lawA3] "law" none) := by decide

/-! Lemmas leading to the idempotence of the normalizer. -/

theorem toNat_ofNat_valid (n : Nat) (h : n < 55296) : (Char.ofNat n).toNat = n := by
  unfold Char.ofNat
  rw [dif_pos (Or.inl h)]
  rfl

theorem char_ne_of_toNat_ne {c d : Char} (h : c.toNat ≠ d.toNat) : c ≠ d :=
  fun heq => h (congrArg Char.toNat heq)

theorem nfdMap_piece {c c' : Char} (h : c' ∈ nfdMap c) : nfdMap c' = [c'] := by
  by_cases h1 : c = 'é'
  · rw [nfdMap, if_pos h1] at h
    simp only [List.mem_cons, List.not_mem_nil, or_false] at h
    rcases h with rfl | rfl
    · decide
    · decide
  · by_cases h2 : c = 'É'
    · rw [nfdMap, if_neg h1, if_pos h2] at h
      simp only [List.mem_cons, List.not_mem_nil, or_false] at h
      rcases h with rfl | rfl
      · decide
      · decide
    · rw [nfdMap, if_neg h1, if_neg h2] at h
      simp only [List.mem_cons, List.not_mem_nil, or_false] at h
      subst h
      rw [nfdMap, if_neg h1, if_neg h2]

theorem lowerChar_good {c : Char} (h1 : nfdMap c = [c]) (h2 : isDiacritic c = false) :
    nfdMap (lowerChar c) = [lowerChar c] ∧ isDiacritic (lowerChar c) = false ∧
      lowerChar (lowerChar c) = lowerChar c := by
  by_cases hu : 65 ≤ c.toNat ∧ c.toNat ≤ 90
  · have hm : (Char.ofNat (c.toNat + 32)).toNat = c.toNat + 32 :=
      toNat_ofNat_valid _ (by omega)
    have hl : lowerChar c = Char.ofNat (c.toNat + 32) := by rw [lowerChar, if_pos hu]
    rw [hl]
    refine ⟨?_, ?_, ?_⟩
    · rw [nfdMap, if_neg, if_neg]
      · refine char_ne_of_toNat_ne ?_
        rw [hm]
        have hv : ('É' : Char).toNat = 201 := by decide
        rw [hv]
        omega
      · refine char_ne_of_toNat_ne ?_
        rw [hm]
        have hv : ('é' : Char).toNat = 233 := by decide
        rw [hv]
        omega
    · simp only [isDiacritic, hm]
      have hb : ¬(768 ≤ c.toNat + 32) := by omega
      simp [hb]
    · rw [lowerChar, if_neg]
      rw [hm]
      omega
  · have hl : lowerChar c = c := by rw [lowerChar, if_neg hu]
    rw [hl]
    exact ⟨h1, h2, hl⟩

theorem charStage_chars {l : List Char} {c : Char} (h : c ∈ charStage l) :
    nfdMap c = [c] ∧ isDiacritic c = false ∧ lowerChar c = c := by
  unfold charStage at h
  rcases List.mem_map.mp h with ⟨c', hc', rfl⟩
  rcases List.mem_filter.mp hc' with ⟨hmem, hdia⟩
  rcases List.mem_flatMap.mp hmem with ⟨c'', _, hpc⟩
  have hnd : isDiacritic c' = false := by
    simpa using hdia
  exact lowerChar_good (nfdMap_piece hpc) hnd

theorem charStage_fixed {l : List Char}
    (h : ∀ c ∈ l, nfdMap c = [c] ∧ isDiacritic c = false ∧ lowerChar c = c) :
    charStage l = l := by
  induction l with
  | nil => rfl
  | cons c rest ih =>
    have hc := h c (List.mem_cons_self _ _)
    have hrest := ih (fun d hd => h d (List.mem_cons_of_mem _ hd))
    unfold charStage at hrest ⊢
    rw [List.flatMap_cons, hc.1]
    simp only [List.cons_append, List.nil_append, List.filter_cons]
    rw [if_pos (by simp [hc.2.1])]
    rw [List.map_cons, hc.2.2, hrest]

theorem wsplitAux_chars : ∀ (l acc : List Char) (w : List Char), w ∈ wsplitAux l acc →
    ∀ c ∈ w, c ∈ l ∨ c ∈ acc := by
  intro l
  induction l with
  | nil =>
    intro acc w hw c hc
    unfold wsplitAux at hw
    by_cases ha : acc = []
    · rw [if_pos ha] at hw
      cases hw
    · rw [if_neg ha] at hw
      simp only [List.mem_singleton] at hw
      subst hw
      exact Or.inr (List.mem_reverse.mp hc)
  | cons x rest ih =>
    intro acc w hw c hc
    unfold wsplitAux at hw
    by_cases hx : isWsChar x
    · rw [if_pos hx] at hw
      by_cases ha : acc = []
      · rw [if_pos ha] at hw
        rcases ih [] w hw c hc with h | h
        · exact Or.inl (List.mem_cons_of_mem _ h)
        · cases h
      · rw [if_neg ha] at hw
        rcases List.mem_cons.mp hw with rfl | hw'
        · exact Or.inr (List.mem_reverse.mp hc)
        · rcases ih [] w hw' c hc with h | h
          · exact Or.inl (List.mem_cons_of_mem _ h)
          · cases h
    · rw [if_neg hx] at hw
      rcases ih (x :: acc) w hw c hc with h | h
      · exact Or.inl (List.mem_cons_of_mem _ h)
      · rcases List.mem_cons.mp h with rfl | h'
        · exact Or.inl (List.mem_cons_self _ _)
        · exact Or.inr h'

theorem joinWords_chars : ∀ (ws : List (List Char)) (c : Char), c ∈ joinWords ws →
    c = ' ' ∨ ∃ w ∈ ws, c ∈ w := by
  intro ws
  induction ws with
  | nil =>
    intro c hc
    cases hc
  | cons w rest ih =>
    intro c hc
    cases rest with
    | nil =>
      rw [joinWords] at hc
      exact Or.inr ⟨w, List.mem_singleton_self _, hc⟩
    | cons v vs =>
      have hj : joinWords (w :: v :: vs) = w ++ ' ' :: joinWords (v :: vs) := rfl
      rw [hj] at hc
      rcases List.mem_append.mp hc with h | h
      · exact Or.inr ⟨w, List.mem_cons_self _ _, h⟩
      · rcases List.mem_cons.mp h with rfl | h'
        · exact Or.inl rfl
        · rcases ih c h' with h'' | ⟨w', hw', hcw'⟩
          · exact Or.inl h''
          · exact Or.inr ⟨w', List.mem_cons_of_mem _ hw', hcw'⟩

theorem collapseWs_chars {l : List Char} {c : Char} (h : c ∈ collapseWs l) :
    c = ' ' ∨ c ∈ l := by
  unfold collapseWs at h
  rcases joinWords_chars _ c h with h' | ⟨w, hw, hcw⟩
  · exact Or.inl h'
  · rcases wsplitAux_chars l [] w hw c hcw with h'' | h''
    · exact Or.inr h''
    · cases h''

theorem wsplitAux_words_ok : ∀ (l acc : List Char), (∀ c ∈ acc, isWsChar c = false) →
    ∀ w ∈ wsplitAux l acc, w ≠ [] ∧ ∀ c ∈ w, isWsChar c = false := by
  intro l
  induction l with
  | nil =>
    intro acc hacc w hw
    unfold wsplitAux at hw
    by_cases ha : acc = []
    · rw [if_pos ha] at hw
      cases hw
    · rw [if_neg ha] at hw
      simp only [List.mem_singleton] at hw
      subst hw
      refine ⟨by simpa using ha, fun c hc => hacc c (List.mem_reverse.mp hc)⟩
  | cons x rest ih =>
    intro acc hacc w hw
    unfold wsplitAux at hw
    by_cases hx : isWsChar x
    · rw [if_pos hx] at hw
      by_cases ha : acc = []
      · rw [if_pos ha] at hw
        exact ih [] (by intro c hc; cases hc) w hw
      · rw [if_neg ha] at hw
        rcases List.mem_cons.mp hw with rfl | hw'
        · refine ⟨by simpa using ha, fun c hc => hacc c (List.mem_reverse.mp hc)⟩
        · exact ih [] (by intro c hc; cases hc) w hw'
    · rw [if_neg hx] at hw
      refine ih (x :: acc) ?_ w hw
      intro c hc
      rcases List.mem_cons.mp hc with rfl | hc'
      · simpa using hx
      · exact hacc c hc'

theorem wsplitAux_nil_eq (acc : List Char) :
    wsplitAux [] acc = if acc = [] then [] else [acc.reverse] := rfl

theorem wsplitAux_cons_eq (x : Char) (rest acc : List Char) :
    wsplitAux (x :: rest) acc =
      if isWsChar x then
        if acc = [] then wsplitAux rest [] else acc.reverse :: wsplitAux rest []
      else wsplitAux rest (x :: acc) := rfl

theorem wsplitAux_run : ∀ (w acc : List Char), (∀ c ∈ w, isWsChar c = false) →
    wsplitAux w acc = if acc.reverse ++ w = [] then [] else [acc.reverse ++ w] := by
  intro w
  induction w with
  | nil =>
    intro acc _
    cases acc with
    | nil => rfl
    | cons a as =>
      rw [wsplitAux_nil_eq, if_neg (by simp), if_neg (by simp)]
      simp
  | cons c rest ih =>
    intro acc hw
    have hc : isWsChar c = false := hw c (List.mem_cons_self _ _)
    rw [wsplitAux_cons_eq, if_neg (by simp [hc])]
    rw [ih (c :: acc) (fun d hd => hw d (List.mem_cons_of_mem _ hd))]
    have he : (c :: acc).reverse ++ rest = acc.reverse ++ c :: rest := by simp
    rw [if_neg (by simp), if_neg (by simp), he]

theorem wsplitAux_word_space : ∀ (w rest acc : List Char), (∀ c ∈ w, isWsChar c = false) →
    wsplitAux (w ++ ' ' :: rest) acc =
      (if acc.reverse ++ w = [] then [] else [acc.reverse ++ w]) ++ wsplitAux rest [] := by
  intro w
  induction w with
  | nil =>
    intro rest acc _
    simp only [List.nil_append, List.append_nil]
    rw [wsplitAux_cons_eq, if_pos (by decide)]
    cases acc with
    | nil => simp
    | cons a as =>
      rw [if_neg (by simp), if_neg (by simp)]
      simp
  | cons c w' ih =>
    intro rest acc hw
    have hc : isWsChar c = false := hw c (List.mem_cons_self _ _)
    simp only [List.cons_append]
    rw [wsplitAux_cons_eq, if_neg (by simp [hc])]
    rw [ih rest (c :: acc) (fun d hd => hw d (List.mem_cons_of_mem _ hd))]
    have he : (c :: acc).reverse ++ w' = acc.reverse ++ c :: w' := by simp
    rw [he]

theorem wsplit_joinWords : ∀ (ws : List (List Char)),
    (∀ w ∈ ws, w ≠ [] ∧ ∀ c ∈ w, isWsChar c = false) →
    wsplitAux (joinWords ws) [] = ws := by
  intro ws
  induction ws with
  | nil => intro _; rfl
  | cons w rest ih =>
    intro h
    have hw := h w (List.mem_cons_self _ _)
    cases rest with
    | nil =>
      show wsplitAux w [] = [w]
      rw [wsplitAux_run w [] hw.2]
      rw [if_neg (by simpa using hw.1)]
      simp
    | cons v vs =>
      have hj : joinWords (w :: v :: vs) = w ++ ' ' :: joinWords (v :: vs) := rfl
      rw [hj, wsplitAux_word_space w _ [] hw.2]
      rw [if_neg (by simpa using hw.1)]
      rw [ih (fun u hu => h u (List.mem_cons_of_mem _ hu))]
      simp

theorem collapseWs_idem (l : List Char) : collapseWs (collapseWs l) = collapseWs l := by
  show joinWords (wsplitAux (joinWords (wsplitAux l [])) []) = joinWords (wsplitAux l [])
  rw [wsplit_joinWords _ (wsplitAux_words_ok l [] (by intro c hc; cases hc))]

theorem normChars_idem (l : List Char) : normChars (normChars l) = normChars l := by
  show collapseWs (charStage (collapseWs (charStage l))) = collapseWs (charStage l)
  rw [charStage_fixed, collapseWs_idem]
  intro c hc
  rcases collapseWs_chars hc with rfl | hc'
  · exact ⟨by decide, by decide, by decide⟩
  · exact charStage_chars hc'

/-- C7: the normalizer is idempotent for every string, and identifies the
case and diacritic variants of "cafe" (the accented letters decompose, the
combining marks are stripped, the case folds). -/
theorem normalize_idempotent_and_diacritics :
    (∀ x : String, normalizePure (normalizePure x) = normalizePure x) ∧
    normalizePure "café" = normalizePure "CAFÉ" ∧
    normalizePure "CAFÉ" = normalizePure "cafe" ∧
    normalizePure "café" = "cafe" :=
  ⟨fun x => congrArg String.mk (normChars_idem x.data), by decide, by decide, by decide⟩

/-! Classification safety (claim C5). -/

theorem queryPatterns_exclusive (isQuoted : Bool) (nu : String) (am : Option Nat)
    (tokens : List String) :
    (queryPatterns isQuoted nu am tokens).2.2.1.isSome =
      (queryPatterns isQuoted nu am tokens).2.1.isSome ∧
    List.count true
      [(queryPatterns isQuoted nu am tokens).1.isSome,
       (queryPatterns isQuoted nu am tokens).2.1.isSome,
       (queryPatterns isQuoted nu am tokens).2.2.2.1.isSome,
       (queryPatterns isQuoted nu am tokens).2.2.2.2.isSome] ≤ 1 := by
  unfold queryPatterns
  split
  · simp
  · cases am with
    | some n => simp
    | none =>
      split_ifs <;> simp

theorem literalParse_cons (c : Char) (rest : List Char) :
    literalParse (c :: rest) =
      if c = '\\' then
        match rest with
        | [] => none
        | d :: rest2 => (literalParse rest2).map (fun l => d :: l)
      else if isRegexMeta c then none
      else (literalParse rest).map (fun l => c :: l) := by
  rw [literalParse.eq_def]

theorem literalParse_escapeRegex : ∀ l : List Char, literalParse (escapeRegex l) = some l := by
  intro l
  induction l with
  | nil => rfl
  | cons c rest ih =>
    show literalParse ((if isRegexMeta c then ['\\', c] else [c]) ++ escapeRegex rest) =
      some (c :: rest)
    by_cases hm : isRegexMeta c
    · rw [if_pos hm]
      show literalParse ('\\' :: c :: escapeRegex rest) = some (c :: rest)
      simp [literalParse_cons, ih]
    · have hne : ¬(c = '\\') := fun h => hm (by rw [h]; decide)
      rw [if_neg hm]
      show literalParse (c :: escapeRegex rest) = some (c :: rest)
      simp [literalParse_cons, hne, hm, ih]

/-- C5: every raw query string, including ones with regex metacharacters or
unbalanced quotes, classifies into exactly one valid descriptor and the
search cannot throw: the escaping routine turns any user string into a
pattern that parses as the literal string itself (round-trip through
`literalParse`), the descriptor records the original query, and the
pattern-selection ladder fills at most one mode's pattern group (with the
two article patterns always set together). -/
theorem classification_unique_and_escaped (q : String) :
    literalParse (escapeRegex q.data) = some q.data ∧
    (buildQueryMeta q).originalQuery = q ∧
    (buildQueryMeta q).articleStartPattern.isSome = (buildQueryMeta q).articlePattern.isSome ∧
    List.count true
      [(buildQueryMeta q).wholeWord.isSome, (buildQueryMeta q).articlePattern.isSome,
       (buildQueryMeta q).quotedPhrase.isSome, (buildQueryMeta q).andTerms.isSome] ≤ 1 := by
  refine ⟨literalParse_escapeRegex q.data, rfl, ?_, ?_⟩
  · exact (queryPatterns_exclusive _ _ _ _).1
  · exact (queryPatterns_exclusive _ _ _ _).2

/-! Whole-word matching (claim C8). -/

theorem occursAt_iff {pat s : List Char} {p : Nat} :
    occursAt pat s p = true ↔ (s.drop p).take pat.length = pat := by
  simp [occursAt]

theorem occursAt_get {pat s : List Char} {p i : Nat} (h : occursAt pat s p = true)
    (hi : i < pat.length) : s.get? (p + i) = pat.get? i := by
  have he := occursAt_iff.mp h
  calc s.get? (p + i) = (s.drop p).get? i := by simp [List.getElem?_drop]
    _ = ((s.drop p).take pat.length).get? i := by
      simp [List.getElem?_take_of_lt, hi]
    _ = pat.get? i := by rw [he]

theorem matchItem_wholeWord (a : LawArticle) (qm : QueryMeta) (tok : String)
    (h1 : qm.isArticlePattern = false) (hq : qm.quotedPhrase = none)
    (hw : qm.wholeWord = some tok) :
    (matchItem a qm).isMatch = testWholeWord tok.data (getNormalizedSearchableText a).data := by
  unfold matchItem
  rw [h1, hq, hw]
  simp only [Bool.false_and, Bool.false_eq_true, if_false]
  split <;> simp_all

theorem art_inside_article_never_whole (s : List Char)
    (h : (List.range (s.length + 1)).all
      (fun p => !(occursAt "art".data s p) || occursAt "article".data s p) = true) :
    testWholeWord "art".data s = false := by
  unfold testWholeWord
  rw [List.any_eq_false]
  intro p hp hwa
  unfold wholeWordAt at hwa
  simp only [Bool.and_eq_true] at hwa
  obtain ⟨⟨hocc, _⟩, h3⟩ := hwa
  have harti : occursAt "article".data s p = true := by
    have hx := List.all_eq_true.mp h p hp
    simp only [Bool.or_eq_true] at hx
    rcases hx with hneg | hpos
    · rw [hocc] at hneg
      simp at hneg
    · exact hpos
  have ht : s.get? (p + 2) = some 't' := occursAt_get hocc (by decide)
  have hi : s.get? (p + 3) = some 'i' := occursAt_get harti (by decide)
  have hwt : wordCharAt s (p + 2) = true := by
    unfold wordCharAt
    rw [ht]
    decide
  have hwi : wordCharAt s (p + 3) = true := by
    unfold wordCharAt
    rw [hi]
    decide
  have hlen : ("art" : String).data.length = 3 := rfl
  rw [hlen] at h3
  unfold boundaryAt at h3
  rw [if_neg (by omega)] at h3
  have he2 : p + 3 - 1 = p + 2 := by omega
  rw [he2, hwt, hwi] at h3
  simp at h3

/-- C8: in single-token mode a token must occur as a whole word.  For the
query `art`, on any collection in which every occurrence of `art` in an
article's searchable text starts an occurrence of `article` (so the letters
only appear inside that word), the search returns no results. -/
theorem art_substring_no_results (articles : List LawArticle) (filters : Option SearchFilters)
    (h : ∀ a ∈ articles, (List.range ((getNormalizedSearchableText a).data.length + 1)).all
        (fun p => !(occursAt "art".data (getNormalizedSearchableText a).data p) ||
          occursAt "article".data (getNormalizedSearchableText a).data p) = true) :
    search articles "art" filters = [] := by
  unfold search
  rw [if_neg (by decide)]
  dsimp only
  have hqm1 : (buildQueryMeta ⟨trimChars ("art" : String).data⟩).isArticlePattern = false := by
    decide
  have hqm2 : (buildQueryMeta ⟨trimChars ("art" : String).data⟩).quotedPhrase = none := by
    decide
  have hqm3 : (buildQueryMeta ⟨trimChars ("art" : String).data⟩).wholeWord = some "art" := by
    decide
  unfold exactMatchList
  have hf : articles.filter
      (fun a => (matchItem a (buildQueryMeta ⟨trimChars ("art" : String).data⟩)).isMatch) = [] := by
    rw [List.filter_eq_nil_iff]
    intro a ha
    rw [matchItem_wholeWord _ _ _ hqm1 hqm2 hqm3, art_inside_article_never_whole _ (h a ha)]
    simp
  rw [hf]
  exact applyFilters_nil filters

/-- Witness for C8: the concrete article whose text is "This article concerns
the law" yields zero matches for the query `art`. -/
theorem art_substring_no_results_witness :
    search [concernsArticle] "art" none = [] :=
  art_substring_no_results _ none (by decide)

/-! Sorting: order and stability (claim C4). -/

theorem mem_insertByScore {b r : SearchResult} {l : List SearchResult} :
    b ∈ insertByScore r l ↔ b = r ∨ b ∈ l := by
  induction l with
  | nil => simp [insertByScore]
  | cons x xs ih =>
    rw [insertByScore]
    by_cases hc : scoreKey r < scoreKey x
    · rw [if_pos hc]
      simp only [List.mem_cons, ih]
      tauto
    · rw [if_neg hc]
      simp only [List.mem_cons]

theorem insertByScore_pairwise (r : SearchResult) (l : List SearchResult)
    (h : List.Pairwise (fun a b => scoreKey b ≤ scoreKey a) l) :
    List.Pairwise (fun a b => scoreKey b ≤ scoreKey a) (insertByScore r l) := by
  induction l with
  | nil => simp [insertByScore]
  | cons x xs ih =>
    rcases List.pairwise_cons.mp h with ⟨hx, hxs⟩
    rw [insertByScore]
    by_cases hc : scoreKey r < scoreKey x
    · rw [if_pos hc]
      refine List.pairwise_cons.mpr ⟨?_, ih hxs⟩
      intro b hb
      rcases mem_insertByScore.mp hb with rfl | hb'
      · omega
      · exact hx b hb'
    · rw [if_neg hc]
      refine List.pairwise_cons.mpr ⟨?_, h⟩
      intro b hb
      rcases List.mem_cons.mp hb with rfl | hb'
      · omega
      · have := hx b hb'
        omega

theorem sortByScoreDesc_pairwise (l : List SearchResult) :
    List.Pairwise (fun a b => scoreKey b ≤ scoreKey a) (sortByScoreDesc l) := by
  induction l with
  | nil => simp [sortByScoreDesc]
  | cons x xs ih =>
    rw [sortByScoreDesc]
    exact insertByScore_pairwise x _ ih

theorem mem_sortByScoreDesc {x : SearchResult} {l : List SearchResult} :
    x ∈ sortByScoreDesc l ↔ x ∈ l := by
  induction l with
  | nil => simp [sortByScoreDesc]
  | cons y ys ih =>
    rw [sortByScoreDesc]
    rw [mem_insertByScore]
    simp [ih]

theorem filter_insertByScore (r : SearchResult) (l : List SearchResult) (v : Nat) :
    (insertByScore r l).filter (fun x => scoreKey x == v) =
      if scoreKey r = v then r :: l.filter (fun x => scoreKey x == v)
      else l.filter (fun x => scoreKey x == v) := by
  induction l with
  | nil => by_cases h : scoreKey r = v <;> simp [insertByScore, h]
  | cons x xs ih =>
    rw [insertByScore]
    by_cases hc : scoreKey r < scoreKey x
    · rw [if_pos hc]
      by_cases hx : scoreKey x = v
      · have hr : ¬(scoreKey r = v) := by omega
        simp [List.filter_cons, hx, hr, ih]
      · by_cases hr : scoreKey r = v <;> simp [List.filter_cons, hx, hr, ih]
    · rw [if_neg hc]
      by_cases hr : scoreKey r = v <;> simp [List.filter_cons, hr]

theorem filter_sortByScoreDesc (l : List SearchResult) (v : Nat) :
    (sortByScoreDesc l).filter (fun x => scoreKey x == v) =
      l.filter (fun x => scoreKey x == v) := by
  induction l with
  | nil => rfl
  | cons x xs ih =>
    rw [sortByScoreDesc, filter_insertByScore]
    by_cases hx : scoreKey x = v <;> simp [List.filter_cons, hx, ih]

/-- C4 amended: on the default path the results are sorted descending by
score, and for every score value the sub-list of results carrying that score
equals the sub-list of matched articles in collection load order (the
ECMAScript sort is stable and the comparator only compares scores) - ties
are NOT reordered by ascending article identifier. -/
theorem results_sorted_stable (articles : List LawArticle) (query : String)
    (h : ¬(trimChars query.data = [])) :
    List.Pairwise (fun a b => scoreKey b ≤ scoreKey a) (search articles query none) ∧
    ∀ v : Nat, (search articles query none).filter (fun r => scoreKey r == v) =
      (exactMatchList articles (buildQueryMeta ⟨trimChars query.data⟩)).filter
        (fun r => scoreKey r == v) := by
  unfold search
  rw [if_neg h]
  dsimp only
  exact ⟨sortByScoreDesc_pairwise _, fun v => filter_sortByScoreDesc _ v⟩

/-- Witness for C4 amended at a concrete two-article collection. -/
theorem results_sorted_stable_witness :
    List.Pairwise (fun a b => scoreKey b ≤ scoreKey a) (search [lawB9, lawA3] "law" none) :=
  (results_sorted_stable [lawB9, lawA3] "law" (by decide)).1

/-! Article-number mode scoring (claims C2 and C3). -/

theorem queryPatterns_article (isQuoted : Bool) (nu : String) (tokens : List String) (n : Nat) :
    queryPatterns isQuoted nu (some n) tokens = (none, some n, some n, none, none) := by
  unfold queryPatterns
  rw [if_neg]
  simp

theorem buildQueryMeta_article_fields (q : String) (n : Nat)
    (h : (buildQueryMeta q).articleNumber = some n) :
    (buildQueryMeta q).isArticlePattern = true ∧
    (buildQueryMeta q).articlePattern = some n ∧
    (buildQueryMeta q).articleStartPattern = some n := by
  unfold buildQueryMeta at h ⊢
  dsimp only at h ⊢
  rw [h, queryPatterns_article]
  exact ⟨rfl, rfl, rfl⟩

theorem scoreMatch_article (a : LawArticle) (qm : QueryMeta) (n : Nat)
    (h1 : qm.isArticlePattern = true) (h2 : qm.articleNumber = some n)
    (h3 : qm.articlePattern = some n) (h4 : qm.articleStartPattern = some n) :
    scoreMatch a qm =
      (if a.article = n then 1000 else 0) +
      (if testArticleStart n (normalizePure a.title).data = true then 800 else 0) +
      (if testArticlePattern n (normalizePure a.title).data = true then 600 else 0) +
      (if testArticlePattern n (getNormalizedSearchableText a).data = true then 400 else 0) := by
  unfold scoreMatch
  rw [h1, h2, h3, h4]
  simp

theorem articleStart_implies_pattern (n : Nat) (t : List Char)
    (h : testArticleStart n t = true) : testArticlePattern n t = true := by
  unfold testArticleStart at h
  simp only [Bool.and_eq_true] at h
  obtain ⟨hocc, htail⟩ := h
  have ha : t.get? 0 = some 'a' := by
    have := occursAt_get (p := 0) (i := 0) hocc (by decide)
    simpa using this
  have hb : boundaryAt t 0 = true := by
    unfold boundaryAt wordCharAt
    rw [if_pos rfl, ha]
    decide
  apply List.any_eq_true.mpr
  refine ⟨0, List.mem_range.mpr (Nat.succ_pos _), ?_⟩
  unfold articlePatternAt
  rw [hocc, hb, htail]
  rfl

/-- C3 amended: in article-number mode the score is the SUM of the fired
tier bonuses (1000 exact identifier, 800 title starts with the pattern, 600
title contains it, 400 searchable text contains it), so the ladder is not a
strict priority order between articles.  What survives: a title-contains
article always outranks a text-only one, a title-starts article outranks one
whose title merely contains (or less), and an exact-identifier article
outranks a text-only one; but an exact-identifier match does NOT in general
outrank a title match (see the counterexample). -/
theorem article_mode_scoring_ladder (q : String) (n : Nat) (A B : LawArticle)
    (h : (buildQueryMeta q).articleNumber = some n) :
    (scoreMatch A (buildQueryMeta q) =
      (if A.article = n then 1000 else 0) +
      (if testArticleStart n (normalizePure A.title).data = true then 800 else 0) +
      (if testArticlePattern n (normalizePure A.title).data = true then 600 else 0) +
      (if testArticlePattern n (getNormalizedSearchableText A).data = true then 400 else 0)) ∧
    (A.article ≠ n → testArticleStart n (normalizePure A.title).data = false →
      testArticlePattern n (normalizePure A.title).data = false →
      testArticlePattern n (normalizePure B.title).data = true →
      scoreMatch A (buildQueryMeta q) < scoreMatch B (buildQueryMeta q)) ∧
    (A.article ≠ n → testArticleStart n (normalizePure A.title).data = false →
      testArticleStart n (normalizePure B.title).data = true →
      scoreMatch A (buildQueryMeta q) < scoreMatch B (buildQueryMeta q)) ∧
    (A.article = n → B.article ≠ n →
      testArticleStart n (normalizePure B.title).data = false →
      testArticlePattern n (normalizePure B.title).data = false →
      testArticlePattern n (getNormalizedSearchableText B).data = true →
      scoreMatch B (buildQueryMeta q) < scoreMatch A (buildQueryMeta q)) := by
  obtain ⟨hf1, hf2, hf3⟩ := buildQueryMeta_article_fields q n h
  have eqA := scoreMatch_article A _ n hf1 h hf2 hf3
  have eqB := scoreMatch_article B _ n hf1 h hf2 hf3
  refine ⟨eqA, ?_, ?_, ?_⟩
  · intro hA1 hA2 hA3 hB
    rw [eqA, eqB, hA2, hA3, hB, if_neg hA1]
    simp only [Bool.false_eq_true, if_false, if_true]
    split_ifs <;> omega
  · intro hA1 hA2 hBs
    have hBt := articleStart_implies_pattern n _ hBs
    rw [eqA, eqB, hA2, hBs, hBt, if_neg hA1]
    simp only [Bool.false_eq_true, if_false, if_true]
    split_ifs <;> omega
  · intro hA1 hB1 hB2 hB3 hB4
    rw [eqA, eqB, hB2, hB3, hB4, if_pos hA1, if_neg hB1]
    simp only [Bool.false_eq_true, if_false, if_true, eq_self_iff_true]
    split_ifs <;> omega

/-- Witness for C3 amended: under the query `article 25`, the
exact-identifier article 25 outranks `background12`, a genuine text-only
match (its body text, but not its title, contains `article 25`, scoring the
400 tier). -/
theorem article_mode_scoring_ladder_witness :
    scoreMatch background12 (buildQueryMeta "article 25") <
      scoreMatch fairTrial25 (buildQueryMeta "article 25") :=
  (article_mode_scoring_ladder "article 25" 25 fairTrial25 background12 (by decide)).2.2.2
    (by decide) (by decide) (by decide) (by decide) (by decide)

/-! The keyword query "Article n" (claim C2). -/

theorem digitChar_spec (d : Nat) (hd : d < 10) :
    (digitChar d).toNat = 48 + d ∧ (digitChar d).isDigit = true ∧
    isWsChar (digitChar d) = false ∧ nfdMap (digitChar d) = [digitChar d] ∧
    isDiacritic (digitChar d) = false ∧ lowerChar (digitChar d) = digitChar d := by
  interval_cases d <;>
    exact ⟨by decide, by decide, by decide, by decide, by decide, by decide⟩

theorem parseDigits_append_single (l : List Char) (c : Char) :
    parseDigits (l ++ [c]) = parseDigits l * 10 + (c.toNat - 48) := by
  unfold parseDigits
  rw [List.foldl_append]
  rfl

theorem natToCharsAux_spec : ∀ fuel n, 0 < fuel → n < 10 ^ fuel →
    natToCharsAux fuel n ≠ [] ∧
    parseDigits (natToCharsAux fuel n) = n ∧
    ∀ c ∈ natToCharsAux fuel n, ∃ d, d < 10 ∧ c = digitChar d := by
  intro fuel
  induction fuel with
  | zero => intro n h0 _; omega
  | succ f ih =>
    intro n _ hn
    by_cases hlt : n < 10
    · rw [natToCharsAux, if_pos hlt]
      refine ⟨by simp, ?_, ?_⟩
      · show parseDigits ([] ++ [digitChar n]) = n
        rw [parseDigits_append_single]
        have := (digitChar_spec n hlt).1
        unfold parseDigits
        simp [this]
      · intro c hc
        simp only [List.mem_singleton] at hc
        exact ⟨n, hlt, hc⟩
    · have hf : 0 < f := by
        by_contra hf0
        have : f = 0 := by omega
        subst this
        simp at hn
        omega
      have hdiv : n / 10 < 10 ^ f := by
        rw [Nat.div_lt_iff_lt_mul (by omega)]
        calc n < 10 ^ (f + 1) := hn
          _ = 10 ^ f * 10 := by rw [Nat.pow_succ]
      obtain ⟨ihne, ihparse, ihmem⟩ := ih (n / 10) hf hdiv
      rw [natToCharsAux, if_neg hlt]
      refine ⟨by simp, ?_, ?_⟩
      · rw [parseDigits_append_single, ihparse]
        have := (digitChar_spec (n % 10) (Nat.mod_lt n (by omega))).1
        rw [this]
        omega
      · intro c hc
        rcases List.mem_append.mp hc with hc' | hc'
        · exact ihmem c hc'
        · simp only [List.mem_singleton] at hc'
          exact ⟨n % 10, Nat.mod_lt n (by omega), hc'⟩

theorem natToChars_spec (n : Nat) :
    natToChars n ≠ [] ∧ parseDigits (natToChars n) = n ∧
    ∀ c ∈ natToChars n, ∃ d, d < 10 ∧ c = digitChar d := by
  refine natToCharsAux_spec (n + 1) n (Nat.succ_pos n) ?_
  calc n < 10 ^ n := Nat.lt_pow_self (by omega) n
    _ ≤ 10 ^ (n + 1) := Nat.pow_le_pow_right (by omega) (Nat.le_succ n)

theorem charStage_append (l1 l2 : List Char) :
    charStage (l1 ++ l2) = charStage l1 ++ charStage l2 := by
  simp [charStage, List.filter_append]

theorem natToChars_fixed (n : Nat) : charStage (natToChars n) = natToChars n := by
  apply charStage_fixed
  intro c hc
  obtain ⟨d, hd, rfl⟩ := (natToChars_spec n).2.2 c hc
  obtain ⟨_, _, _, h4, h5, h6⟩ := digitChar_spec d hd
  exact ⟨h4, h5, h6⟩

theorem natToChars_nonws (n : Nat) : ∀ c ∈ natToChars n, isWsChar c = false := by
  intro c hc
  obtain ⟨d, hd, rfl⟩ := (natToChars_spec n).2.2 c hc
  exact (digitChar_spec d hd).2.2.1

theorem normalizePure_article_query (n : Nat) :
    normalizePure ("Article " ++ ⟨natToChars n⟩) =
      ⟨"article".data ++ ' ' :: natToChars n⟩ := by
  unfold normalizePure normChars
  have hdata : ("Article " ++ (⟨natToChars n⟩ : String)).data =
      "Article ".data ++ natToChars n := rfl
  rw [hdata, charStage_append]
  rw [show charStage ("Article ".data) = "article ".data from by decide]
  rw [natToChars_fixed]
  have hsplit : "article ".data ++ natToChars n = "article".data ++ ' ' :: natToChars n := rfl
  rw [hsplit]
  unfold collapseWs
  rw [wsplitAux_word_space "article".data (natToChars n) [] (by decide)]
  rw [wsplitAux_run (natToChars n) [] (natToChars_nonws n)]
  rw [if_neg (by simp), if_neg (by simp [(natToChars_spec n).1])]
  rfl

theorem articleQueryMatch_canonical (n : Nat) :
    articleQueryMatch ⟨"article".data ++ ' ' :: natToChars n⟩ = some n := by
  obtain ⟨hne, hparse, hmem⟩ := natToChars_spec n
  unfold articleQueryMatch
  dsimp only
  have h7 : ("article".data ++ ' ' :: natToChars n).take 7 = "article".data :=
    List.take_left' rfl
  have hd7 : ("article".data ++ ' ' :: natToChars n).drop 7 = ' ' :: natToChars n :=
    List.drop_left' rfl
  rw [h7, hd7]
  rw [if_pos (by simp)]
  have hdw : (' ' :: natToChars n).dropWhile isWsChar = natToChars n := by
    rw [List.dropWhile_cons, if_pos (by decide)]
    cases hds : natToChars n with
    | nil => rfl
    | cons d rest =>
      rw [List.dropWhile_cons, if_neg]
      rw [natToChars_nonws n d (by rw [hds]; exact List.mem_cons_self _ _)]
      simp
  rw [hdw]
  rw [if_pos, hparse]
  refine ⟨hne, ?_⟩
  rw [List.all_eq_true]
  intro c hc
  obtain ⟨d, hd, rfl⟩ := hmem c hc
  exact (digitChar_spec d hd).2.1

theorem trimChars_eq_self {l : List Char}
    (h1 : ∀ c, l.head? = some c → isWsChar c = false)
    (h2 : ∀ c, l.getLast? = some c → isWsChar c = false) :
    trimChars l = l := by
  unfold trimChars
  have hd : l.dropWhile isWsChar = l := by
    cases l with
    | nil => rfl
    | cons a as =>
      rw [List.dropWhile_cons, if_neg]
      rw [h1 a rfl]
      simp
  rw [hd]
  have hr : l.reverse.dropWhile isWsChar = l.reverse := by
    cases hl : l.reverse with
    | nil => rfl
    | cons a as =>
      rw [List.dropWhile_cons, if_neg]
      have : l.getLast? = some a := by
        rw [← List.head?_reverse, hl]
        rfl
      rw [h2 a this]
      simp
  rw [hr, List.reverse_reverse]

theorem trimChars_article_query (n : Nat) :
    trimChars ("Article " ++ (⟨natToChars n⟩ : String)).data =
      ("Article " ++ (⟨natToChars n⟩ : String)).data := by
  apply trimChars_eq_self
  · intro c hc
    have : ("Article " ++ (⟨natToChars n⟩ : String)).data.head? = some 'A' := rfl
    rw [this] at hc
    cases hc
    decide
  · intro c hc
    have hdata : ("Article " ++ (⟨natToChars n⟩ : String)).data =
        "Article ".data ++ natToChars n := rfl
    rw [hdata, List.getLast?_append_of_ne_nil _ (natToChars_spec n).1] at hc
    have hmemc : c ∈ natToChars n := List.mem_of_getLast?_eq_some hc
    exact natToChars_nonws n c hmemc

theorem buildQueryMeta_canonical_fields (n : Nat) :
    (buildQueryMeta ("Article " ++ ⟨natToChars n⟩)).articleNumber = some n ∧
    (buildQueryMeta ("Article " ++ ⟨natToChars n⟩)).isArticlePattern = true ∧
    (buildQueryMeta ("Article " ++ ⟨natToChars n⟩)).articlePattern = some n ∧
    (buildQueryMeta ("Article " ++ ⟨natToChars n⟩)).articleStartPattern = some n := by
  unfold buildQueryMeta
  dsimp only
  have hq : ((("Article " ++ (⟨natToChars n⟩ : String)).data.head? == some '"') &&
      (("Article " ++ (⟨natToChars n⟩ : String)).data.getLast? == some '"')) = false := rfl
  rw [hq]
  simp only [Bool.false_eq_true, if_false]
  rw [normalizePure_article_query n, articleQueryMatch_canonical n, queryPatterns_article]
  exact ⟨rfl, rfl, rfl, rfl⟩

theorem matchItem_article (a : LawArticle) (qm : QueryMeta) (n : Nat)
    (h1 : qm.isArticlePattern = true) (h2 : qm.articleNumber = some n)
    (h3 : qm.articlePattern = some n) :
    (matchItem a qm).isMatch =
      (decide (a.article = n) ||
        (testArticlePattern n (normalizePure a.title).data ||
         testArticlePattern n (getNormalizedSearchableText a).data)) := by
  unfold matchItem
  rw [h1, h2, h3]
  simp only [Option.isSome_some, Bool.and_self, if_true, Option.getD_some]
  by_cases he : a.article = n
  · simp [he]
  · simp only [he, if_false, decide_eq_false he, Bool.false_or]
    split <;> simp_all

theorem filter_eq_singleton_of_unique {l : List LawArticle} {A : LawArticle}
    (p : LawArticle → Bool) (hmem : A ∈ l)
    (huniq : l.Pairwise (fun a b => a.article ≠ b.article))
    (hA : p A = true) (hother : ∀ B ∈ l, B.article ≠ A.article → p B = false) :
    l.filter p = [A] := by
  induction l with
  | nil => cases hmem
  | cons x rest ih =>
    rcases List.pairwise_cons.mp huniq with ⟨hx, hrest⟩
    rcases List.mem_cons.mp hmem with rfl | hmem'
    · rw [List.filter_cons, if_pos (by simp [hA])]
      suffices h : rest.filter p = [] by rw [h]
      rw [List.filter_eq_nil_iff]
      intro B hB
      have hne : B.article ≠ A.article := (hx B hB).symm
      rw [hother B (List.mem_cons_of_mem _ hB) hne]
      simp
    · have hpx : p x = false := hother x (List.mem_cons_self _ _) (hx A hmem')
      rw [List.filter_cons, if_neg (by simp [hpx])]
      exact ih hmem' hrest (fun B hB hBA => hother B (List.mem_cons_of_mem _ hB) hBA)









/-- C2 amended: for every article A of the collection, the exact search for
`"Article " + A.article` always includes the result built from A, with a
score of at least 1000; and when additionally the collection has pairwise
distinct identifiers and no OTHER article's normalized title or searchable
text contains the textual pattern `article <n>`, the result set is exactly
the singleton [A] (so A trivially has the highest score).  Without that side
condition the result need not be a singleton and A need not rank highest -
see the counterexample. -/
theorem article_keyword_query_singleton (articles : List LawArticle) (A : LawArticle)
    (hmem : A ∈ articles) :
    ({ toLawArticle := A,
       score := some (scoreMatch A (buildQueryMeta ("Article " ++ ⟨natToChars A.article⟩))),
       matchType := some .exact } : SearchResult) ∈
      search articles ("Article " ++ ⟨natToChars A.article⟩) none ∧
    1000 ≤ scoreMatch A (buildQueryMeta ("Article " ++ ⟨natToChars A.article⟩)) ∧
    (articles.Pairwise (fun a b => a.article ≠ b.article) →
      (∀ B ∈ articles, B.article ≠ A.article →
        testArticlePattern A.article (normalizePure B.title).data = false ∧
        testArticlePattern A.article (getNormalizedSearchableText B).data = false) →
      search articles ("Article " ++ ⟨natToChars A.article⟩) none =
        [{ toLawArticle := A,
           score := some (scoreMatch A (buildQueryMeta ("Article " ++ ⟨natToChars A.article⟩))),
           matchType := some .exact }]) := by
  obtain ⟨hnum, hf1, hf2, hf3⟩ := buildQueryMeta_canonical_fields A.article
  refine ⟨?_, ?_, ?_⟩
  · unfold search
    rw [if_neg (by
      rw [trimChars_article_query A.article]
      exact List.cons_ne_nil _ _)]
    dsimp only
    rw [show (⟨trimChars ("Article " ++ (⟨natToChars A.article⟩ : String)).data⟩ : String) =
        ("Article " ++ (⟨natToChars A.article⟩ : String)) from by
      rw [trimChars_article_query A.article]]
    unfold exactMatchList
    generalize hg : buildQueryMeta ("Article " ++ (⟨natToChars A.article⟩ : String)) = qm
    rw [hg] at hnum hf1 hf2 hf3
    rw [applyFilters_none, mem_sortByScoreDesc]
    apply List.mem_map.mpr
    refine ⟨A, ?_, rfl⟩
    apply List.mem_filter.mpr
    refine ⟨hmem, ?_⟩
    rw [matchItem_article A qm A.article hf1 hnum hf2]
    simp
  · generalize hg : buildQueryMeta ("Article " ++ (⟨natToChars A.article⟩ : String)) = qm
    rw [hg] at hnum hf1 hf2 hf3
    rw [scoreMatch_article A qm A.article hf1 hnum hf2 hf3, if_pos rfl]
    split_ifs <;> omega
  · intro huniq hothers
    unfold search
    rw [if_neg (by
      rw [trimChars_article_query A.article]
      exact List.cons_ne_nil _ _)]
    dsimp only
    rw [show (⟨trimChars ("Article " ++ (⟨natToChars A.article⟩ : String)).data⟩ : String) =
        ("Article " ++ (⟨natToChars A.article⟩ : String)) from by
      rw [trimChars_article_query A.article]]
    unfold exactMatchList
    generalize hg : buildQueryMeta ("Article " ++ (⟨natToChars A.article⟩ : String)) = qm
    rw [hg] at hnum hf1 hf2 hf3
    have hfilter : articles.filter (fun a => (matchItem a qm).isMatch) = [A] := by
      apply filter_eq_singleton_of_unique _ hmem huniq
      · rw [matchItem_article A qm A.article hf1 hnum hf2]
        simp
      · intro B hB hne
        rw [matchItem_article B qm A.article hf1 hnum hf2]
        obtain ⟨hb1, hb2⟩ := hothers B hB hne
        simp [hb1, hb2, hne]
    rw [hfilter]
    rfl

/-- Witness for C2 amended: on the two-article collection where the other
article has no occurrence of the pattern, the query returns the singleton. -/
theorem article_keyword_query_singleton_witness :
    search [fairTrial25, lawB9] ("Article " ++ ⟨natToChars fairTrial25.article⟩) none =
      [{ toLawArticle := fairTrial25,
         score := some (scoreMatch fairTrial25
           (buildQueryMeta ("Article " ++ ⟨natToChars fairTrial25.article⟩))),
         matchType := some .exact }] :=
  (article_keyword_query_singleton [fairTrial25, lawB9] fairTrial25 (by decide)).2.2
    (by decide) (by decide)

/-! The engine state: frame property of search (claim C9) and the
simulation of the cache-threaded engine by the pure one, which justifies
stating the other claims over the pure `search`. -/

theorem mem_filterChapter {r : SearchResult} {l : List SearchResult} {f : SearchFilters}
    (h : r ∈ filterChapter l f) : r ∈ l := by
  unfold filterChapter at h
  split at h
  · split at h
    · exact h
    · exact (List.mem_filter.mp h).1
  · exact h

theorem mem_filterPart {r : SearchResult} {l : List SearchResult} {f : SearchFilters}
    (h : r ∈ filterPart l f) : r ∈ l := by
  unfold filterPart at h
  split at h
  · split at h
    · exact h
    · exact (List.mem_filter.mp h).1
  · exact h

theorem mem_filterTags {r : SearchResult} {l : List SearchResult} {f : SearchFilters}
    (h : r ∈ filterTags l f) : r ∈ l := by
  unfold filterTags at h
  split at h
  · split at h
    · exact (List.mem_filter.mp h).1
    · exact h
  · exact h

theorem mem_filterLawSource {r : SearchResult} {l : List SearchResult} {f : SearchFilters}
    (h : r ∈ filterLawSource l f) : r ∈ l := by
  unfold filterLawSource at h
  split at h
  · split at h
    · exact h
    · exact (List.mem_filter.mp h).1
  · exact h

theorem mem_applyFilters {r : SearchResult} {l : List SearchResult} {f : Option SearchFilters}
    (h : r ∈ applyFilters l f) : r ∈ l := by
  cases f with
  | none => exact h
  | some f =>
    exact mem_filterChapter (mem_filterPart (mem_filterTags (mem_filterLawSource h)))

theorem matchLoop_mem : ∀ (arts : List LawArticle) (qm : QueryMeta) (c : Cache),
    ∀ r ∈ (matchLoop arts qm c).1, r.toLawArticle ∈ arts := by
  intro arts
  induction arts with
  | nil =>
    intro qm c r hr
    simp [matchLoop] at hr
  | cons a rest ih =>
    intro qm c r hr
    rw [matchLoop] at hr
    dsimp only at hr
    by_cases hm : (matchItemSt a qm c).1.isMatch
    · rw [if_pos hm] at hr
      rcases List.mem_cons.mp hr with rfl | hr'
      · exact List.mem_cons_self _ _
      · exact List.mem_cons_of_mem _ (ih qm _ r hr')
    · rw [if_neg hm] at hr
      exact List.mem_cons_of_mem _ (ih qm _ r hr)

/-- C9: the search (stateful model, cache threaded through every `normalize`
call) never changes the stored collection: the articles component of the
engine state is returned unchanged, and every returned result is a record
freshly built from (and field-for-field equal to) one of the stored articles,
on both the browse path and the exact path. -/
theorem search_frame (st : EngineState) (q : String) (f : Option SearchFilters) :
    (searchSt st q f).2.articles = st.articles ∧
    ((searchSt st q f).1.all (fun r => decide (r.toLawArticle ∈ st.articles))) = true := by
  unfold searchSt
  by_cases h : trimChars q.data = []
  · rw [if_pos h]
    refine ⟨rfl, ?_⟩
    rw [List.all_eq_true]
    intro r hr
    rcases List.mem_map.mp hr with ⟨a, ha, rfl⟩
    simpa using List.take_subset _ _ ha
  · rw [if_neg h]
    dsimp only
    refine ⟨rfl, ?_⟩
    rw [List.all_eq_true]
    intro r hr
    have h1 := mem_applyFilters hr
    have h2 := mem_sortByScoreDesc.mp h1
    have h3 := matchLoop_mem _ _ _ r h2
    simpa using h3

theorem cacheCoherent_nil : cacheCoherent [] := by
  intro kv hkv
  cases hkv

theorem normalizeSt_coherent {c : Cache} (hc : cacheCoherent c) (s : String) :
    (normalizeSt s c).1 = normalizePure s ∧ cacheCoherent (normalizeSt s c).2 := by
  unfold normalizeSt
  cases hl : cacheLookup c s with
  | none =>
    refine ⟨rfl, ?_⟩
    intro kv hkv
    rcases List.mem_cons.mp hkv with rfl | hkv'
    · rfl
    · exact hc kv hkv'
  | some v =>
    refine ⟨?_, hc⟩
    unfold cacheLookup at hl
    rcases Option.map_eq_some'.mp hl with ⟨kv, hfind, hv⟩
    have hmem := List.mem_of_find?_eq_some hfind
    have hpred := List.find?_some hfind
    have hk : kv.1 = s := by simpa using hpred
    rw [← hv, hc kv hmem, hk]

theorem buildQueryMetaSt_sim {c : Cache} (hc : cacheCoherent c) (q : String) :
    (buildQueryMetaSt q c).1 = buildQueryMeta q ∧
    cacheCoherent (buildQueryMetaSt q c).2 := by
  obtain ⟨h0f, h0c⟩ := normalizeSt_coherent hc q
  unfold buildQueryMetaSt buildQueryMeta
  dsimp only
  obtain ⟨h1f, h1c⟩ := normalizeSt_coherent h0c
    (if ((q.data.head? == some '"') && (q.data.getLast? == some '"')) then
      (⟨(q.data.drop 1).dropLast⟩ : String) else q)
  rw [h1f]
  exact ⟨rfl, h1c⟩

theorem matchItemSt_sim {c : Cache} (hc : cacheCoherent c) (a : LawArticle) (qm : QueryMeta) :
    (matchItemSt a qm c).1 = matchItem a qm ∧ cacheCoherent (matchItemSt a qm c).2 := by
  obtain ⟨h1f, h1c⟩ := normalizeSt_coherent hc (searchableJoined a)
  obtain ⟨h2f, h2c⟩ := normalizeSt_coherent h1c a.title
  obtain ⟨_, h3c⟩ := normalizeSt_coherent h2c (a.articleNumberLabel.getD "")
  unfold matchItemSt
  dsimp only
  unfold getNormalizedSearchableTextSt
  rw [h1f, h2f]
  exact ⟨rfl, h3c⟩

theorem scoreMatchSt_sim {c : Cache} (hc : cacheCoherent c) (a : LawArticle) (qm : QueryMeta) :
    (scoreMatchSt a qm c).1 = scoreMatch a qm ∧ cacheCoherent (scoreMatchSt a qm c).2 := by
  obtain ⟨h1f, h1c⟩ := normalizeSt_coherent hc (searchableJoined a)
  obtain ⟨h2f, h2c⟩ := normalizeSt_coherent h1c a.title
  obtain ⟨_, h3c⟩ := normalizeSt_coherent h2c (a.articleNumberLabel.getD "")
  unfold scoreMatchSt
  dsimp only
  unfold getNormalizedSearchableTextSt
  rw [h1f, h2f]
  exact ⟨rfl, h3c⟩

theorem matchLoop_sim : ∀ (arts : List LawArticle) (qm : QueryMeta) (c : Cache),
    cacheCoherent c →
    (matchLoop arts qm c).1 = exactMatchList arts qm ∧
    cacheCoherent (matchLoop arts qm c).2 := by
  intro arts
  induction arts with
  | nil =>
    intro qm c hc
    exact ⟨rfl, hc⟩
  | cons a rest ih =>
    intro qm c hc
    obtain ⟨hmf, hmc⟩ := matchItemSt_sim hc a qm
    rw [matchLoop]
    dsimp only
    unfold exactMatchList
    rw [List.filter_cons]
    by_cases hm : (matchItemSt a qm c).1.isMatch
    · rw [if_pos hm]
      obtain ⟨hsf, hsc⟩ := scoreMatchSt_sim hmc a qm
      obtain ⟨hlf, hlc⟩ := ih qm _ hsc
      rw [if_pos (by rw [← hmf]; simp [hm])]
      refine ⟨?_, hlc⟩
      rw [List.map_cons]
      rw [hlf, hsf]
      unfold exactMatchList
      rfl
    · rw [if_neg hm]
      obtain ⟨hlf, hlc⟩ := ih qm _ hmc
      rw [if_neg (by rw [← hmf]; simp [hm])]
      refine ⟨?_, hlc⟩
      rw [hlf]
      unfold exactMatchList
      rfl

theorem searchSt_sim (st : EngineState) (q : String) (f : Option SearchFilters)
    (hc : cacheCoherent st.cache) :
    (searchSt st q f).1 = search st.articles q f ∧
    cacheCoherent (searchSt st q f).2.cache := by
  unfold searchSt search
  by_cases h : trimChars q.data = []
  · rw [if_pos h, if_pos h]
    exact ⟨rfl, hc⟩
  · rw [if_neg h, if_neg h]
    dsimp only
    obtain ⟨hbf, hbc⟩ := buildQueryMetaSt_sim hc (⟨trimChars q.data⟩ : String)
    rw [hbf]
    obtain ⟨hlf, hlc⟩ := matchLoop_sim st.articles (buildQueryMeta (⟨trimChars q.data⟩ : String))
      ((buildQueryMetaSt (⟨trimChars q.data⟩ : String) st.cache).2) hbc
    rw [hlf]
    exact ⟨rfl, hlc⟩
